import Mathlib

/-!
Shallow embedding of the core of the `indexing` crate (branded indices,
ranges and the scoped container), translated from `src/indexing.rs`,
`src/container.rs`, `src/proof.rs`, `src/pointer.rs` and
`src/algorithms.rs`.

Brands are compile-time-only and carry no data, so they are erased here.
The proof marker, a phantom type parameter in Rust, is carried as an
explicit field.  `usize` values are modelled as `Nat` (all the arithmetic
in the embedded operations stays far from overflow and subtraction only
happens under the `start ≤ end` invariant the crate maintains).  Rust's
`Result<_, IndexingError>` becomes `Except IndexingError _`.
Rust's `end` field is called `stop` here (`end` is a Lean keyword).
-/

/-- Proof marker: `NonEmpty` or `Unknown` (src/proof.rs). -/
inductive Proof where
  | NonEmpty
  | Unknown
deriving DecidableEq, Repr

/-- Proof sum (src/proof.rs `ProofAdd`):
`(NonEmpty, Q) ↦ NonEmpty`, `(Unknown, Q) ↦ Q`. -/
def ProofAdd (p q : Proof) : Proof :=
  match p with
  | .NonEmpty => .NonEmpty
  | .Unknown => q

/-- The single, field-less error value (src/index_error.rs). -/
inductive IndexingError where
  | indexError
deriving DecidableEq, Repr

/-- Decidable equality for `Except` results, so that concrete runs of the
fallible operations can be checked by `decide`. -/
instance {ε α : Type _} [DecidableEq ε] [DecidableEq α] :
    DecidableEq (Except ε α) := fun a b =>
  match a, b with
  | .error e, .error f => decidable_of_iff (e = f) (by simp)
  | .error _, .ok _ => isFalse (by simp)
  | .ok _, .error _ => isFalse (by simp)
  | .ok x, .ok y => decidable_of_iff (x = y) (by simp)

/-- A branded index: absolute offset plus proof marker (src/indexing.rs). -/
structure Index where
  index : Nat
  proof : Proof
deriving DecidableEq, Repr

/-- `Index::after`: the index directly after (proof becomes `Unknown`). -/
def Index.after (i : Index) : Index :=
  ⟨i.index + 1, .Unknown⟩

/-- A branded half-open range `start..stop` with proof marker
(src/indexing.rs `Range`). -/
structure Range where
  start : Nat
  stop : Nat
  proof : Proof
deriving DecidableEq, Repr

/-- `Range::len`: `end - start`. -/
def Range.len (r : Range) : Nat := r.stop - r.start

/-- `Range::is_empty`: `start >= end`. -/
def Range.is_empty (r : Range) : Bool := r.stop ≤ r.start

/-- `Range::nonempty`: runtime check; `Ok` carries the `NonEmpty` proof. -/
def Range.nonempty (r : Range) : Except IndexingError Range :=
  if !r.is_empty then .ok { r with proof := .NonEmpty }
  else .error .indexError

/-- `Range::split_in_half`: `mid = (end - start) / 2 + start`; the latter
half inherits the input's proof `P`, the former is `Unknown`. -/
def Range.split_in_half (r : Range) : Range × Range :=
  let mid := (r.stop - r.start) / 2 + r.start
  (⟨r.start, mid, .Unknown⟩, ⟨mid, r.stop, r.proof⟩)

/-- `Range::join`: requires exact adjacency `self.end == other.start`;
result carries proof `ProofAdd P Q`. -/
def Range.join (r other : Range) : Except IndexingError Range :=
  if r.stop = other.start then
    .ok ⟨r.start, other.stop, ProofAdd r.proof other.proof⟩
  else .error .indexError

/-- `Range::join_cover`: extend to `max(self.end, other.end)`, keeping
`self.start`; result carries proof `ProofAdd P Q`. -/
def Range.join_cover (r other : Range) : Range :=
  ⟨r.start, max r.stop other.stop, ProofAdd r.proof other.proof⟩

/-- `Range::frontiers`: the two empty ranges at the endpoints. -/
def Range.frontiers (r : Range) : Range × Range :=
  (⟨r.start, r.start, .Unknown⟩, ⟨r.stop, r.stop, .Unknown⟩)

/-- `Range::first`: index at `start`, inheriting the range's proof. -/
def Range.first (r : Range) : Index :=
  ⟨r.start, r.proof⟩

/-- `Range<NonEmpty>::tail`: drop the first element. -/
def Range.tail (r : Range) : Range :=
  ⟨r.start + 1, r.stop, .Unknown⟩

/-- `Range<NonEmpty>::advance`: move `start` forward by one if the result
is still nonempty; returns the success flag and the (possibly unchanged)
range, modelling the in-place mutation. -/
def Range.advance (r : Range) : Bool × Range :=
  let next : Range := { r with start := r.start + 1 }
  if next.start < next.stop then (true, next) else (false, r)

/-- The scoped container: the borrowed sequence (brand erased)
(src/container.rs `Container`). -/
structure Container (α : Type) where
  arr : List α
deriving DecidableEq, Repr

/-- `Container::len`. -/
def Container.len (c : Container α) : Nat := c.arr.length

/-- `Container::range`: the full range `0..len`, proof `Unknown`. -/
def Container.range (c : Container α) : Range :=
  ⟨0, c.len, .Unknown⟩

/-- `Container::vet`: bounds-check an absolute index; `Ok` carries a
`NonEmpty` index of the same offset. -/
def Container.vet (c : Container α) (index : Nat) : Except IndexingError Index :=
  if index < c.len then .ok ⟨index, .NonEmpty⟩
  else .error .indexError

/-- `Container::vet_range`: check `start ≤ end ∧ end ≤ len`; `Ok` carries
the `Unknown`-proof range. -/
def Container.vet_range (c : Container α) (start stop : Nat) :
    Except IndexingError Range :=
  if start ≤ stop ∧ stop ≤ c.len then .ok ⟨start, stop, .Unknown⟩
  else .error .indexError

/-- `Container::before`: `0..index` (via `range_of(..index)`). -/
def Container.before (c : Container α) (i : Index) : Range :=
  ⟨0, i.index, .Unknown⟩

/-- `Container::after`: `index + 1 .. len` (via `range_of(index.after()..)`). -/
def Container.after (c : Container α) (i : Index) : Range :=
  ⟨i.after.index, c.len, .Unknown⟩

/-- The composite `before(i).join(after(i)).nonempty()` of testable
property 6, as a boolean: `true` exactly when the join succeeds and the
joined range passes the `nonempty` check. -/
def beforeJoinAfterNonempty (c : Container α) (i : Index) : Bool :=
  match (c.before i).join (c.after i) with
  | .ok r =>
    match r.nonempty with
    | .ok _ => true
    | .error _ => false
  | .error _ => false

/-- The loop of `Container::scan_from` (src/container.rs): walk the
elements after the start index (given with their absolute offsets,
`pos` being the offset of the head of `l`) while the predicate holds.
Returns the list of offsets at which `f` was invoked, in invocation
order, together with the count of elements that satisfied `f`. -/
def scanLoop (f : α → Bool) : List α → Nat → List Nat × Nat
  | [], _ => ([], 0)
  | x :: xs, pos =>
    if f x then
      let r := scanLoop f xs (pos + 1)
      (pos :: r.1, r.2 + 1)
    else ([pos], 0)

/-- `Container::scan_from`: scan forward from `i` (exclusive) while `f`
holds; the result range always includes `i` and is `NonEmpty`.  The
first component instruments the embedding with the offsets at which the
predicate was applied. -/
def Container.scan_from (c : Container α) (i : Index) (f : α → Bool) :
    List Nat × Range :=
  let r := scanLoop f (c.arr.drop (i.index + 1)) (i.index + 1)
  (r.1, ⟨i.index, i.index + 1 + r.2, .NonEmpty⟩)

/-- The loop of `Container::zip_mut_raw` (src/container.rs): `k` more
iterations to go, next pair of element offsets `(rs, ss)`.  Returns the
offset pairs passed to the callback, in invocation order. -/
def zipPairs (rs ss : Nat) : Nat → List (Nat × Nat)
  | 0 => []
  | k + 1 => (rs, ss) :: zipPairs (rs + 1) (ss + 1) k

/-- `Container::zip_mut_raw`: walks both ranges in lockstep for
`min(r.len(), s.len())` steps; this embedding returns the trace of
offset pairs handed to the callback `f`. -/
def Container.zip_mut_raw_trace (r s : Range) : List (Nat × Nat) :=
  zipPairs r.start s.start (min r.len s.len)

/-- The loop of `lower_bound` (src/algorithms.rs), fuelled: while the
range is nonempty, split in half, compare the first element of the
latter half, and continue with that half's tail or with the former
half; return `range.start()` when empty.  The fuel only bounds the
iteration count; it is chosen large enough that it never runs out. -/
def lowerBoundLoop (v : List Nat) (elt : Nat) : Nat → Range → Nat
  | 0, range => range.start
  | fuel + 1, range =>
    match range.nonempty with
    | .error _ => range.start
    | .ok range_ =>
      let p := range_.split_in_half
      if v.getD p.2.first.index 0 < elt then
        lowerBoundLoop v elt fuel p.2.tail
      else
        lowerBoundLoop v elt fuel p.1

/-- `lower_bound` (src/algorithms.rs): binary search for the first
position not before `elt`, starting from the container's full range. -/
def lower_bound (v : List Nat) (elt : Nat) : Nat :=
  lowerBoundLoop v elt (v.length + 1) ⟨0, v.length, .Unknown⟩

/-- `PRange` (src/pointer.rs): pointer range in start/end representation.
Addresses are modelled in element units as `Nat`. -/
structure PRange where
  start : Nat
  stop : Nat
  proof : Proof
deriving DecidableEq, Repr

/-- `PRange::len`: `ptrdistance(end, start)`, in element units. -/
def PRange.len (r : PRange) : Nat := r.stop - r.start

/-- `PSlice` (src/pointer.rs): pointer range in start/length
representation. -/
structure PSlice where
  start : Nat
  len : Nat
  proof : Proof
deriving DecidableEq, Repr

/-- `impl From<PSlice> for PRange`:
`PRange::new(range.start, range.start.offset(range.len))`. -/
def PRange.ofPSlice (s : PSlice) : PRange :=
  ⟨s.start, s.start + s.len, s.proof⟩

/-- `impl From<PRange> for PSlice`:
`PSlice::new(range.start, ptrdistance(range.end, range.start))`. -/
def PSlice.ofPRange (r : PRange) : PSlice :=
  ⟨r.start, r.stop - r.start, r.proof⟩

/-- `Frac` (src/indexing.rs): accumulated decimal position,
numerator and denominator. -/
structure Frac where
  d : Nat
  num : Nat
  den : Nat
deriving DecidableEq, Repr

/-- `Frac::next_interval`: add the decimal and fractional step, carrying
one extra unit when the numerator reaches the denominator; returns the
produced interval and the updated state. -/
def Frac.next_interval (f : Frac) (dec frac : Nat) : (Nat × Nat) × Frac :=
  let start := f.d
  let d1 := f.d + dec
  let n1 := f.num + frac
  if n1 ≥ f.den then ((start, d1 + 1), ⟨d1 + 1, n1 - f.den, f.den⟩)
  else ((start, d1), ⟨d1, n1, f.den⟩)

/-- `FracStep` (src/indexing.rs). -/
structure FracStep where
  f : Frac
  frac_step : Nat
  decimal_step : Nat
  start : Nat
  stop : Nat
deriving DecidableEq, Repr

/-- `FracStep::new`: `decimal_step = len / divisor`,
`frac_step = len % divisor`; when `decimal_step == 0` the end collapses
to the start so that the iterator yields nothing. -/
def FracStep.new (start stop divisor : Nat) : FracStep :=
  let len := stop - start
  let decimal_step := len / divisor
  let frac_step := len % divisor
  let stop1 := if decimal_step = 0 then start else stop
  ⟨⟨start, 0, divisor⟩, frac_step, decimal_step, start, stop1⟩

/-- `FracStep::next`: stop when the accumulated position reaches the
end, else produce the next interval. -/
def FracStep.next (s : FracStep) : Option ((Nat × Nat) × FracStep) :=
  if s.f.d ≥ s.stop then none
  else
    let r := s.f.next_interval s.decimal_step s.frac_step
    some (r.1, { s with f := r.2 })

/-- Run the `FracStep` iterator to exhaustion; the fuel only bounds the
number of iterations and is chosen large enough to never run out (each
successful step advances the position by at least one). -/
def fracRun : Nat → FracStep → List (Nat × Nat)
  | 0, _ => []
  | fuel + 1, s =>
    match s.next with
    | none => []
    | some (iv, s1) => iv :: fracRun fuel s1

/-- `Range::subdivide` / the `Subdivide` iterator, collected into a
list: each interval from the fraction stepper becomes a `NonEmpty`
range (`Range::from_ne`). -/
def Range.subdivide (r : Range) (n : Nat) : List Range :=
  (fracRun (r.stop - r.start + 1) (FracStep.new r.start r.stop n)).map
    (fun p => ⟨p.1, p.2, .NonEmpty⟩)

/-- Closed form of the fraction stepper's accumulated position after `j`
steps over a range of length `L` divided into `n` parts:
`start + j*(L/n) + (j*(L%n))/n`. -/
def subPos (start L n j : Nat) : Nat :=
  start + j * (L / n) + j * (L % n) / n

/-- The `FracStep` state after `j` steps, in closed form. -/
def stateAt (start stop n j : Nat) : FracStep :=
  { f := ⟨subPos start (stop - start) n j, j * ((stop - start) % n) % n, n⟩,
    frac_step := (stop - start) % n,
    decimal_step := (stop - start) / n,
    start := start,
    stop := stop }

/-! ## Helper lemmas -/

theorem zipPairs_length : ∀ (k rs ss : Nat), (zipPairs rs ss k).length = k := by
  intro k
  induction k with
  | zero => intro rs ss; rfl
  | succ k ih =>
    intro rs ss
    simp [zipPairs, ih]

theorem zipPairs_getD : ∀ (k rs ss i : Nat), i < k →
    (zipPairs rs ss k).getD i (0, 0) = (rs + i, ss + i) := by
  intro k
  induction k with
  | zero => intro rs ss i h; omega
  | succ k ih =>
    intro rs ss i h
    cases i with
    | zero => simp [zipPairs]
    | succ i =>
      have h2 := ih (rs + 1) (ss + 1) i (by omega)
      simp only [zipPairs, List.getD_cons_succ, h2, Prod.mk.injEq]
      omega

theorem scanLoop_eq (f : α → Bool) :
    ∀ (l : List α) (pos : Nat),
    scanLoop f l pos =
      (List.range' pos (min ((l.takeWhile f).length + 1) l.length),
       (l.takeWhile f).length) := by
  intro l
  induction l with
  | nil => intro pos; simp [scanLoop]
  | cons x xs ih =>
    intro pos
    by_cases hx : f x = true
    · rw [List.takeWhile_cons_of_pos hx]
      simp only [scanLoop, hx, if_pos, ih (pos + 1), List.length_cons]
      have hmin : min ((xs.takeWhile f).length + 1 + 1) (xs.length + 1) =
          min ((xs.takeWhile f).length + 1) xs.length + 1 := by
        omega
      rw [hmin, List.range'_succ]
    · rw [List.takeWhile_cons_of_neg hx]
      simp only [scanLoop, hx, if_neg, List.length_nil, List.length_cons]
      have hmin : min (0 + 1) (xs.length + 1) = 1 := by omega
      rw [hmin]
      simp [List.range'_succ]

/-! ## Claim theorems -/

/-- C1: `join_cover` does span `a.start .. max(a.end, b.end)` with proof
`ProofAdd P Q`, but the returned range does NOT uphold the `NonEmpty`
invariant.  Evaluated at the failing input of the crate's own
compile-fail test `tests/compile-fail/join_cover.rs` (GitHub issue 12):
on a 6-element container, `left = vet_range(0..2).nonempty()` and
`right` = the back frontier `6..6`; `right.join_cover(left)` is the
range `6..6` carrying the `NonEmpty` proof, whose start is not strictly
less than its end. -/
theorem join_cover_issue12_bug :
    (Container.mk ([0, 1, 2, 3, 4, 5] : List Nat)).vet_range 0 2 =
      .ok ⟨0, 2, .Unknown⟩ ∧
    (Range.mk 0 2 .Unknown).nonempty = .ok ⟨0, 2, .NonEmpty⟩ ∧
    ((Container.mk ([0, 1, 2, 3, 4, 5] : List Nat)).range.frontiers).2 =
      ⟨6, 6, .Unknown⟩ ∧
    (Range.mk 6 6 .Unknown).join_cover ⟨0, 2, .NonEmpty⟩ =
      ⟨6, 6, .NonEmpty⟩ ∧
    ¬(((Range.mk 6 6 .Unknown).join_cover ⟨0, 2, .NonEmpty⟩).start <
        ((Range.mk 6 6 .Unknown).join_cover ⟨0, 2, .NonEmpty⟩).stop) := by
  decide

/-- C2 counterexample: on a container of length 2 with the vetted index
0, `before(i).join(after(i)).nonempty()` is already false (the two
ranges `0..0` and `1..2` are not adjacent, so the join fails), refuting
"false only when N = 1". -/
theorem before_join_after_counterexample :
    (Container.mk ([10, 20] : List Nat)).vet 0 = .ok ⟨0, .NonEmpty⟩ ∧
    beforeJoinAfterNonempty (Container.mk ([10, 20] : List Nat))
      ⟨0, .NonEmpty⟩ = false ∧
    (Container.mk ([10, 20] : List Nat)).len ≠ 1 := by
  decide

/-- C2 amended: for every container and every vetted (`NonEmpty`) index
`i`, `before(i)` ends at `i` while `after(i)` starts at `i + 1`, so the
join always fails with the adjacency error and the composite
`before(i).join(after(i)).nonempty()` is false for every container
length, not only when N = 1. -/
theorem before_join_after_always_fails :
    ∀ (α : Type) (c : Container α) (i : Index),
    i.index < c.len → i.proof = .NonEmpty →
    (c.before i).join (c.after i) = .error .indexError ∧
    beforeJoinAfterNonempty c i = false := by
  intro α c i _ _
  have hj : (c.before i).join (c.after i) = .error .indexError := by
    simp [Container.before, Container.after, Index.after, Range.join]
  exact ⟨hj, by simp [beforeJoinAfterNonempty, hj]⟩

/-- C2 amended, witness at the container `[10, 20]` and index 0. -/
theorem before_join_after_always_fails_witness :
    beforeJoinAfterNonempty (Container.mk ([10, 20] : List Nat))
      ⟨0, .NonEmpty⟩ = false :=
  (before_join_after_always_fails Nat (Container.mk [10, 20]) ⟨0, .NonEmpty⟩
    (by decide) (by decide)).2

/-- C4: `vet(k)` succeeds with the `NonEmpty` index of offset `k`
exactly when `k < len`, and errors exactly when `k ≥ len`;
`vet_range(k..m)` succeeds with the `Unknown` range `k..m` exactly when
`k ≤ m ∧ m ≤ len`, and errors otherwise. -/
theorem vet_spec :
    ∀ (α : Type) (c : Container α) (k m : Nat),
    (c.vet k = .ok ⟨k, .NonEmpty⟩ ↔ k < c.len) ∧
    (c.vet k = .error .indexError ↔ c.len ≤ k) ∧
    (c.vet_range k m = .ok ⟨k, m, .Unknown⟩ ↔ k ≤ m ∧ m ≤ c.len) ∧
    (c.vet_range k m = .error .indexError ↔ ¬(k ≤ m ∧ m ≤ c.len)) := by
  intro α c k m
  refine ⟨?_, ?_, ?_, ?_⟩
  · simp only [Container.vet]; split <;> simp_all
  · simp only [Container.vet]; split <;> simp_all
  · simp only [Container.vet_range]; split <;> simp_all
  · simp only [Container.vet_range]; split <;> simp_all

/-- C5: `split_in_half` returns `a = start..mid` (proof `Unknown`) and
`b = mid..end` (inheriting the input's proof) with
`mid = start + len/2`; `b` is nonempty whenever the input is; and
`a.join(b)` succeeds and returns the input range itself. -/
theorem split_in_half_join_spec :
    ∀ r : Range,
    (r.split_in_half).1 = ⟨r.start, r.start + r.len / 2, .Unknown⟩ ∧
    (r.split_in_half).2 = ⟨r.start + r.len / 2, r.stop, r.proof⟩ ∧
    (r.start < r.stop →
      (r.split_in_half).2.start < (r.split_in_half).2.stop) ∧
    (r.split_in_half).1.join (r.split_in_half).2 = .ok r := by
  intro r
  have hmid : (r.stop - r.start) / 2 + r.start = r.start + r.len / 2 := by
    rw [Range.len]; omega
  refine ⟨?_, ?_, ?_, ?_⟩
  · simp [Range.split_in_half, hmid]
  · simp [Range.split_in_half, hmid]
  · intro h
    simp only [Range.split_in_half]
    omega
  · simp [Range.split_in_half, Range.join, ProofAdd]

/-- C5 witness at the range `2..7` with the `NonEmpty` proof. -/
theorem split_in_half_join_spec_witness :
    ((Range.mk 2 7 .NonEmpty).split_in_half).2.start <
      ((Range.mk 2 7 .NonEmpty).split_in_half).2.stop :=
  (split_in_half_join_spec ⟨2, 7, .NonEmpty⟩).2.2.1 (by decide)

/-- C6: on a nonempty range, `advance` returns `true` and moves the
start forward by one exactly when the result is still nonempty
(`start + 1 < end`); on a single-element range it returns `false` and
leaves the range unchanged. -/
theorem advance_spec :
    ∀ r : Range, r.proof = .NonEmpty → r.start < r.stop →
    ((r.advance).1 = true ↔ r.start + 1 < r.stop) ∧
    (r.start + 1 < r.stop → (r.advance).2 = ⟨r.start + 1, r.stop, r.proof⟩) ∧
    (r.len = 1 → (r.advance).1 = false ∧ (r.advance).2 = r) := by
  intro r _ _
  have hadv : r.advance =
      if r.start + 1 < r.stop then (true, ⟨r.start + 1, r.stop, r.proof⟩)
      else (false, r) := rfl
  refine ⟨?_, ?_, ?_⟩
  · rw [hadv]; split <;> simp_all
  · intro h; rw [hadv, if_pos h]
  · intro h
    have hs : ¬(r.start + 1 < r.stop) := by rw [Range.len] at h; omega
    rw [hadv, if_neg hs]
    exact ⟨rfl, rfl⟩

/-- C6 witness: the single-element nonempty range `4..5`. -/
theorem advance_spec_witness :
    ((Range.mk 4 5 .NonEmpty).advance).1 = false ∧
    ((Range.mk 4 5 .NonEmpty).advance).2 = ⟨4, 5, .NonEmpty⟩ :=
  (advance_spec ⟨4, 5, .NonEmpty⟩ (by decide) (by decide)).2.2 (by decide)

/-- C7: `lower_bound` on `[0, 1, 1, 2, 2, 2, 3, 4]` searching for `2`
returns the absolute offset 3 (scenario S1), computed by the embedded
split-in-half / first-of-latter-half / tail-or-left loop. -/
theorem lower_bound_scenario :
    lower_bound [0, 1, 1, 2, 2, 2, 3, 4] 2 = 3 := by
  decide

/-- C8: the end-delimited `PRange` and length-delimited `PSlice`
representations denote the same interval: both conversions are total
functions that preserve the start, the length and the proof parameter,
and the two round trips are the identity (for `PRange` under its
`start ≤ end` representation invariant, asserted at construction). -/
theorem prange_pslice_equiv :
    (∀ s : PSlice,
      PSlice.ofPRange (PRange.ofPSlice s) = s ∧
      (PRange.ofPSlice s).start = s.start ∧
      (PRange.ofPSlice s).len = s.len ∧
      (PRange.ofPSlice s).proof = s.proof) ∧
    (∀ r : PRange, r.start ≤ r.stop →
      PRange.ofPSlice (PSlice.ofPRange r) = r ∧
      (PSlice.ofPRange r).start = r.start ∧
      (PSlice.ofPRange r).len = r.len ∧
      (PSlice.ofPRange r).proof = r.proof) := by
  constructor
  · rintro ⟨a, b, p⟩
    have hab : a + b - a = b := by omega
    refine ⟨?_, rfl, ?_, rfl⟩
    · simp [PRange.ofPSlice, PSlice.ofPRange, hab]
    · show a + b - a = b
      exact hab
  · rintro ⟨a, b, p⟩ h
    have h2 : a ≤ b := h
    have hab : a + (b - a) = b := by omega
    refine ⟨?_, rfl, rfl, rfl⟩
    simp [PRange.ofPSlice, PSlice.ofPRange, hab]

/-- C8 witness: round trip through `PSlice` at the `PRange` `3..8`. -/
theorem prange_pslice_equiv_witness :
    PRange.ofPSlice (PSlice.ofPRange ⟨3, 8, .NonEmpty⟩) =
      (⟨3, 8, .NonEmpty⟩ : PRange) :=
  ((prange_pslice_equiv).2 ⟨3, 8, .NonEmpty⟩ (by decide)).1

/-- C9: `zip_mut_raw(r, s, f)` invokes the callback exactly
`min(r.len(), s.len())` times, handing it at step `i` the element
offsets `(r.start + i, s.start + i)` in increasing order of `i`; when
either range is empty the callback is never invoked. -/
theorem zip_mut_raw_spec :
    ∀ (r s : Range) (i : Nat),
    (Container.zip_mut_raw_trace r s).length = min r.len s.len ∧
    (i < min r.len s.len →
      (Container.zip_mut_raw_trace r s).getD i (0, 0) =
        (r.start + i, s.start + i)) ∧
    (r.len = 0 ∨ s.len = 0 → Container.zip_mut_raw_trace r s = []) := by
  intro r s i
  refine ⟨?_, ?_, ?_⟩
  · exact zipPairs_length _ _ _
  · intro h
    exact zipPairs_getD _ _ _ _ h
  · intro h
    have hz : min r.len s.len = 0 := by omega
    rw [Container.zip_mut_raw_trace, hz]
    rfl

/-- C9 witness: ranges `2..5` and `10..12`; the callback sees the two
offset pairs `(2, 10)` and `(3, 11)`. -/
theorem zip_mut_raw_spec_witness :
    (Container.zip_mut_raw_trace ⟨2, 5, .Unknown⟩ ⟨10, 12, .Unknown⟩).getD
      1 (0, 0) = (3, 11) :=
  (zip_mut_raw_spec ⟨2, 5, .Unknown⟩ ⟨10, 12, .Unknown⟩ 1).2.1 (by decide)

/-- C10: `scan_from(i, f)` returns the `NonEmpty` range
`i .. i + 1 + k`, where `k` is the length of the maximal prefix of the
elements after `i` on which `f` holds; the predicate is applied at the
offsets `i + 1, i + 2, ...` in increasing order, stopping at the first
failing element or at the container's end, and is never applied at `i`
itself. -/
theorem scan_from_spec :
    ∀ (α : Type) (c : Container α) (i : Index) (f : α → Bool),
    i.index < c.len →
    (c.scan_from i f).2 =
      ⟨i.index,
       i.index + 1 + ((c.arr.drop (i.index + 1)).takeWhile f).length,
       .NonEmpty⟩ ∧
    (c.scan_from i f).1 =
      List.range' (i.index + 1)
        (min (((c.arr.drop (i.index + 1)).takeWhile f).length + 1)
          (c.len - (i.index + 1))) ∧
    (∀ p ∈ (c.scan_from i f).1, i.index < p) ∧
    (c.scan_from i f).2.start < (c.scan_from i f).2.stop := by
  intro α c i f _
  have hloop := scanLoop_eq f (c.arr.drop (i.index + 1)) (i.index + 1)
  have hlen : (c.arr.drop (i.index + 1)).length = c.len - (i.index + 1) :=
    List.length_drop _ _
  refine ⟨?_, ?_, ?_, ?_⟩
  · simp [Container.scan_from, hloop]
  · simp [Container.scan_from, hloop, hlen]
  · intro p hp
    simp only [Container.scan_from, hloop] at hp
    have := List.mem_range'_1.mp hp
    omega
  · simp only [Container.scan_from]
    omega

/-- C10 witness: container `[5, 6, 7, 8]`, start index 1, predicate
`(· < 8)`: the predicate is applied at offsets 2 and 3 only, and the
returned range is `1..3`. -/
theorem scan_from_spec_witness :
    ((Container.mk ([5, 6, 7, 8] : List Nat)).scan_from ⟨1, .NonEmpty⟩
        (fun x => x < 8)).2 =
      ⟨1, 3, .NonEmpty⟩ :=
  (scan_from_spec Nat (Container.mk [5, 6, 7, 8]) ⟨1, .NonEmpty⟩
    (fun x => x < 8) (by decide)).1



theorem subPos_zero (start L n : Nat) : subPos start L n 0 = start := by
  simp [subPos]

theorem subPos_succ (start L n j : Nat) (hn : 0 < n) :
    subPos start L n (j + 1) =
      subPos start L n j + L / n +
        (if n ≤ j * (L % n) % n + L % n then 1 else 0) := by
  have hf : L % n < n := Nat.mod_lt _ hn
  have key : (j + 1) * (L % n) / n =
      j * (L % n) / n + (if n ≤ j * (L % n) % n + L % n then 1 else 0) := by
    have h1 : (j + 1) * (L % n) = j * (L % n) + L % n := by ring
    rw [h1, Nat.add_div hn, Nat.div_eq_of_lt hf, Nat.mod_eq_of_lt hf]
    simp
  have hm : (j + 1) * (L / n) = j * (L / n) + L / n := by ring
  simp only [subPos, hm, key]
  by_cases hc : n ≤ j * (L % n) % n + L % n <;> simp [hc] <;> omega

theorem subNum_succ (start L n j : Nat) (hn : 0 < n) :
    (j + 1) * (L % n) % n =
      if n ≤ j * (L % n) % n + L % n then j * (L % n) % n + L % n - n
      else j * (L % n) % n + L % n := by
  have hf : L % n < n := Nat.mod_lt _ hn
  have hm : j * (L % n) % n < n := Nat.mod_lt _ hn
  have h1 : (j + 1) * (L % n) = j * (L % n) + L % n := by ring
  rw [h1, Nat.add_mod, Nat.mod_eq_of_lt hf]
  by_cases hc : n ≤ j * (L % n) % n + L % n
  · rw [if_pos hc, Nat.mod_eq_sub_mod hc, Nat.mod_eq_of_lt (by omega)]
  · rw [if_neg hc, Nat.mod_eq_of_lt (by omega)]

theorem subPos_lt_succ (start L n j : Nat) (hn : 0 < n) (hd : 1 ≤ L / n) :
    subPos start L n j < subPos start L n (j + 1) := by
  rw [subPos_succ start L n j hn]
  by_cases hc : n ≤ j * (L % n) % n + L % n <;> simp [hc] <;> omega

theorem subPos_strictMono (start L n : Nat) (hn : 0 < n) (hd : 1 ≤ L / n) :
    StrictMono (subPos start L n) :=
  strictMono_nat_of_lt_succ (fun j => subPos_lt_succ start L n j hn hd)

theorem subPos_last (start stop n : Nat) (hn : 0 < n) (hst : start ≤ stop) :
    subPos start (stop - start) n n = stop := by
  have h1 : n * ((stop - start) % n) / n = (stop - start) % n :=
    Nat.mul_div_cancel_left _ hn
  have h2 := Nat.div_add_mod (stop - start) n
  simp only [subPos, h1]
  omega


theorem fracStep_new_eq (start stop n : Nat) (hd : (stop - start) / n ≠ 0) :
    FracStep.new start stop n = stateAt start stop n 0 := by
  simp [FracStep.new, stateAt, subPos, hd]

theorem stateAt_next_some (start stop n : Nat) (hn : 0 < n) (hst : start ≤ stop)
    (hL : n ≤ stop - start) (j : Nat) (hj : j < n) :
    (stateAt start stop n j).next =
      some ((subPos start (stop - start) n j, subPos start (stop - start) n (j + 1)),
            stateAt start stop n (j + 1)) := by
  have hd : 1 ≤ (stop - start) / n := (Nat.one_le_div_iff hn).mpr hL
  have hmono := subPos_strictMono start (stop - start) n hn hd
  have hend := subPos_last start stop n hn hst
  have hguard : subPos start (stop - start) n j < stop := by
    have h := hmono hj
    rw [hend] at h
    exact h
  have hs := subPos_succ start (stop - start) n j hn
  have hnum := subNum_succ start (stop - start) n j hn
  simp only [FracStep.next, stateAt, Frac.next_interval]
  rw [if_neg (by omega)]
  by_cases hc : n ≤ j * ((stop - start) % n) % n + (stop - start) % n
  · rw [if_pos hc] at hs
    rw [if_pos hc] at hnum
    rw [if_pos (by omega), hs, hnum]
  · rw [if_neg hc] at hs
    rw [if_neg hc] at hnum
    rw [if_neg (by omega), hs, hnum]
    simp

theorem stateAt_next_none (start stop n : Nat) (hn : 0 < n) (hst : start ≤ stop) :
    (stateAt start stop n n).next = none := by
  have hend := subPos_last start stop n hn hst
  simp [FracStep.next, stateAt, hend]


theorem fracRun_stateAt (start stop n : Nat) (hn : 0 < n) (hst : start ≤ stop)
    (hL : n ≤ stop - start) :
    ∀ (fuel i : Nat), i ≤ n → n - i ≤ fuel →
    fracRun fuel (stateAt start stop n i) =
      (List.range (n - i)).map
        (fun j => (subPos start (stop - start) n (i + j),
                   subPos start (stop - start) n (i + j + 1))) := by
  intro fuel
  induction fuel with
  | zero =>
    intro i hi hf
    have hin : i = n := by omega
    subst hin
    simp [fracRun]
  | succ fuel ih =>
    intro i hi hf
    by_cases hin : i = n
    · rw [hin]
      simp [fracRun, stateAt_next_none start stop n hn hst]
    · have hilt : i < n := by omega
      have lhs : fracRun (fuel + 1) (stateAt start stop n i) =
          (subPos start (stop - start) n i, subPos start (stop - start) n (i + 1)) ::
            fracRun fuel (stateAt start stop n (i + 1)) := by
        simp [fracRun, stateAt_next_some start stop n hn hst hL i hilt]
      rw [lhs, ih (i + 1) (by omega) (by omega)]
      have hr : n - i = (n - (i + 1)) + 1 := by omega
      rw [hr, List.range_succ_eq_map, List.map_cons, List.map_map]
      simp only [List.cons.injEq]
      refine ⟨by simp, ?_⟩
      refine List.map_congr_left ?_
      intro a _
      simp only [Function.comp]
      have e1 : i + 1 + a = i + Nat.succ a := by omega
      rw [e1]


theorem subdivide_closed (r : Range) (n : Nat) (hn : 0 < n)
    (hwf : r.start ≤ r.stop) (hL : n ≤ r.stop - r.start) :
    r.subdivide n =
      (List.range n).map
        (fun j => ⟨subPos r.start (r.stop - r.start) n j,
                   subPos r.start (r.stop - r.start) n (j + 1), .NonEmpty⟩) := by
  have hd : (r.stop - r.start) / n ≠ 0 := by
    have := (Nat.one_le_div_iff hn).mpr hL
    omega
  rw [Range.subdivide, fracStep_new_eq r.start r.stop n hd]
  have hrun := fracRun_stateAt r.start r.stop n hn hwf hL
    (r.stop - r.start + 1) 0 (by omega) (by omega)
  rw [hrun, List.map_map]
  simp only [Nat.sub_zero]
  refine List.map_congr_left ?_
  intro a _
  simp [Function.comp]

theorem subdivide_empty (r : Range) (n : Nat) (hL : r.stop - r.start < n) :
    r.subdivide n = [] := by
  have hd : (r.stop - r.start) / n = 0 := Nat.div_eq_of_lt hL
  rw [Range.subdivide]
  have h1 : r.stop - r.start + 1 = (r.stop - r.start) + 1 := rfl
  simp [fracRun, FracStep.new, FracStep.next, hd]

theorem telescope_sum (g : Nat → Nat) (hmono : ∀ j, g j ≤ g (j + 1)) :
    ∀ n : Nat, ((List.range n).map (fun j => g (j + 1) - g j)).sum = g n - g 0 := by
  have hm : Monotone g := monotone_nat_of_le_succ hmono
  intro n
  induction n with
  | zero => simp
  | succ n ih =>
    rw [List.range_succ, List.map_append, List.sum_append, ih]
    have h0n : g 0 ≤ g n := hm (by omega)
    have hnn : g n ≤ g (n + 1) := hmono n
    simp
    omega


/-- C3: for a (well-formed) range of length `L` and divisor `n ≥ 1`:
when `L ≥ n`, `subdivide(n)` yields exactly `n` ranges, each nonempty
(and carrying the `NonEmpty` proof), with consecutive endpoints (each
range's end is the next one's start, so interiors are disjoint), whose
lengths sum to `L` and which start at the range's start and finish at
its end (so their union is the original range); when `L < n`, the
iterator yields no ranges. -/
theorem subdivide_spec (r : Range) (n : Nat) (hwf : r.start ≤ r.stop) (hn : 1 ≤ n) :
    (r.len < n → r.subdivide n = []) ∧
    (n ≤ r.len →
      (r.subdivide n).length = n ∧
      (∀ s ∈ r.subdivide n, s.start < s.stop ∧ s.proof = .NonEmpty) ∧
      ((r.subdivide n).map Range.len).sum = r.len ∧
      (∀ j (h : j + 1 < (r.subdivide n).length),
        ((r.subdivide n).get ⟨j, by omega⟩).stop =
          ((r.subdivide n).get ⟨j + 1, h⟩).start) ∧
      ((r.subdivide n).head?.map Range.start = some r.start) ∧
      ((r.subdivide n).getLast?.map Range.stop = some r.stop)) := by
  constructor
  · intro h
    exact subdivide_empty r n h
  · intro hL
    have hn0 : 0 < n := hn
    have hc := subdivide_closed r n hn0 hwf hL
    have hd : 1 ≤ (r.stop - r.start) / n := (Nat.one_le_div_iff hn0).mpr hL
    have hmono := subPos_strictMono r.start (r.stop - r.start) n hn0 hd
    refine ⟨?_, ?_, ?_, ?_, ?_, ?_⟩
    · rw [hc]; simp
    · rw [hc]
      intro s hs
      obtain ⟨j, hj, rfl⟩ := List.mem_map.mp hs
      exact ⟨hmono (by omega), rfl⟩
    · rw [hc, List.map_map]
      have hcong : (List.range n).map
            (Range.len ∘ fun j => Range.mk (subPos r.start (r.stop - r.start) n j)
              (subPos r.start (r.stop - r.start) n (j + 1)) .NonEmpty) =
          (List.range n).map
            (fun j => subPos r.start (r.stop - r.start) n (j + 1) -
              subPos r.start (r.stop - r.start) n j) := by
        refine List.map_congr_left ?_
        intro a _
        rfl
      rw [hcong, telescope_sum (subPos r.start (r.stop - r.start) n)
        (fun j => le_of_lt (hmono (by omega))) n]
      rw [subPos_last r.start r.stop n hn0 hwf, subPos_zero]
      rfl
    · intro j h
      rw [List.get_of_eq hc, List.get_of_eq hc]
      simp [List.get_eq_getElem, List.getElem_map, List.getElem_range]
    · rw [hc]
      cases n with
      | zero => omega
      | succ m =>
        rw [List.range_succ_eq_map]
        simp [subPos_zero]
    · rw [hc, List.getLast?_map]
      cases n with
      | zero => omega
      | succ m =>
        rw [List.range_succ, List.getLast?_concat]
        have := subPos_last r.start r.stop (m + 1) hn0 hwf
        simp [this]

/-- C3 witness: the range `0..8` subdivided in 3 parts (the crate's own
`test_frac_step` case) yields 3 ranges. -/
theorem subdivide_spec_witness :
    ((Range.mk 0 8 Proof.Unknown).subdivide 3).length = 3 :=
  (((subdivide_spec ⟨0, 8, .Unknown⟩ 3 (by decide) (by decide)).2) (by decide)).1
